import Mathlib

/-!
Verification of the native-scan pipeline (normalize.py, scan_native_libs.py,
scan_normalized.py) against its natural-language specification.

Shallow embedding conventions:
- Python `bytes` values are `List Nat` (each element a byte value, < 256 for
  real inputs; nothing below depends on the bound).
- Python `str` values are `List Char` (Unicode code points); `str.lower` is
  modelled by `lowerChar`, the ASCII case map, which agrees with Python on
  every character appearing in the rule table and search terms (all ASCII).
- `bytes.find(needle, start)` is modelled by `findFrom` (least occurrence
  index at or after `start`, `none` when absent), driven by a fuel that is
  always sufficient.
-/

namespace NativeScan

/-- `prefixFits needle l = true` iff `needle` is an initial segment of `l`. -/
def prefixFits {α : Type} [DecidableEq α] : List α → List α → Bool
  | [], _ => true
  | _ :: _, [] => false
  | a :: as, b :: bs => if a = b then prefixFits as bs else false

/-- Python `needle in hay` (contiguous subsequence test). -/
def containsSub {α : Type} [DecidableEq α] (hay needle : List α) : Bool :=
  match hay with
  | [] => decide (needle = [])
  | _ :: t => prefixFits needle hay || containsSub t needle

/-- Python `data.find(needle, start)` with explicit fuel: scan candidate start
positions upward, returning the least occurrence index, `none` if absent. -/
def findFromFuel (data needle : List Nat) : Nat → Nat → Option Nat
  | _, 0 => none
  | start, fuel + 1 =>
    if start + needle.length ≤ data.length then
      if prefixFits needle (data.drop start) then some start
      else findFromFuel data needle (start + 1) fuel
    else none

/-- Python `data.find(needle, start)` (with `-1` modelled as `none`). The fuel
`data.length + 1 - start` covers every candidate position. -/
def findFrom (data needle : List Nat) (start : Nat) : Option Nat :=
  findFromFuel data needle start (data.length + 1 - start)

/-- The matched-offsets loop of `find_bytes_all`: while fewer than `fuel` hits
have been collected, find the next occurrence at or after `start`, record it,
and resume at the recorded offset plus one (overlapping matches allowed). -/
def findLoop (data needle : List Nat) : Nat → Nat → List Nat
  | _, 0 => []
  | start, fuel + 1 =>
    match findFrom data needle start with
    | none => []
    | some idx => idx :: findLoop data needle (idx + 1) fuel

/-- `find_bytes_all(data, needle, max_hits)` from scan_native_libs.py. -/
def find_bytes_all (data needle : List Nat) (max_hits : Nat) : List Nat :=
  if needle.length = 0 then [] else findLoop data needle 0 max_hits

/-- `str.lower` on a single character. All rule-table entries and search terms
in this repository are ASCII, where Python lowercasing is exactly the A-Z map. -/
def lowerChar (c : Char) : Char :=
  if 65 ≤ c.toNat ∧ c.toNat ≤ 90 then Char.ofNat (c.toNat + 32) else c

/-- `str.lower`. -/
def pyLower (s : List Char) : List Char := s.map lowerChar

/-- Python whitespace (ASCII portion) as stripped by `str.strip()`. -/
def isPySpace (c : Char) : Bool :=
  c = ' ' || c = '\t' || c = '\n' || c = '\x0d' || c = '\x0b' || c = '\x0c'

/-- `str.strip()` restricted to ASCII whitespace. -/
def pyStrip (s : List Char) : List Char :=
  ((s.dropWhile isPySpace).reverse.dropWhile isPySpace).reverse

/-- `line.rstrip("\n")`. -/
def rstripNl (s : List Char) : List Char :=
  (s.reverse.dropWhile (fun c => c = '\n')).reverse

/-- Accumulator loop for `splitLinesLF`: `cur` holds the reversed characters
of the line being assembled. -/
def splitAux : List Char → List Char → List (List Char)
  | [], cur => [cur.reverse]
  | c :: rest, cur =>
    if c = '\n' then
      cur.reverse :: (match rest with | [] => [] | _ :: _ => splitAux rest [])
    else splitAux rest (c :: cur)

/-- `str.splitlines()` for LF-separated text (the pipeline's normalized
artifacts are written with `\n` separators; the printable-ASCII filter
excludes every other line terminator from their content). -/
def splitLinesLF (s : List Char) : List (List Char) :=
  match s with
  | [] => []
  | _ :: _ => splitAux s []

/-- UTF-8 bytes of one code point. -/
def utf8Bytes (c : Char) : List Nat :=
  let n := c.toNat
  if n < 128 then [n]
  else if n < 2048 then [192 + n / 64, 128 + n % 64]
  else if n < 65536 then [224 + n / 4096, 128 + (n / 64) % 64, 128 + n % 64]
  else [240 + n / 262144, 128 + (n / 4096) % 64, 128 + (n / 64) % 64, 128 + n % 64]

/-- `term.encode("utf-8", errors="ignore")`. -/
def encodeUtf8 (s : List Char) : List Nat := s.flatMap utf8Bytes

/-- UTF-16LE bytes of one code point (surrogate pair above the BMP). -/
def utf16leBytes (c : Char) : List Nat :=
  let n := c.toNat
  if n < 65536 then [n % 256, n / 256]
  else
    let m := n - 65536
    let hi := 55296 + m / 1024
    let lo := 56320 + m % 1024
    [hi % 256, hi / 256, lo % 256, lo / 256]

/-- `term.encode("utf-16le", errors="ignore")`. -/
def encodeUtf16le (s : List Char) : List Nat := s.flatMap utf16leBytes

/-- `MAX_HITS_PER_TERM_PER_FILE` of scan_native_libs.py. -/
def MAX_HITS_PER_TERM_PER_FILE : Nat := 50

/-- `MAX_TERMS`. -/
def MAX_TERMS : Nat := 500

/-- One line of `load_search_terms` (scan_native_libs.py): strip, skip blank
lines and comment lines, store lowercased. -/
def loadLine (line : List Char) : Option (List Char) :=
  let s := pyStrip line
  match s with
  | [] => none
  | c :: _ => if c = '#' then none else some (pyLower s)

/-- `load_search_terms` of scan_native_libs.py: filtered lines in file order,
capped at `MAX_TERMS` (terms are lowercased in this loader). -/
def load_search_terms (lines : List (List Char)) : List (List Char) :=
  (lines.filterMap loadLine).take MAX_TERMS

/-- One raw-byte finding of `scan_file_for_terms` (`offset_hex` serialization
is kept as the numeric offset). -/
structure Finding where
  type : String
  term : List Char
  offset : Nat
deriving DecidableEq

/-- The per-term body of the `scan_file_for_terms` loop: UTF-8 needle findings
first, then UTF-16LE needle findings, each capped at
`MAX_HITS_PER_TERM_PER_FILE`. -/
def term_findings (data : List Nat) (term : List Char) : List Finding :=
  (let ba := encodeUtf8 term
   if ba = [] then []
   else (find_bytes_all data ba MAX_HITS_PER_TERM_PER_FILE).map
     (fun o => ⟨"bytes_ascii", term, o⟩))
  ++
  (let bu := encodeUtf16le term
   if bu = [] then []
   else (find_bytes_all data bu MAX_HITS_PER_TERM_PER_FILE).map
     (fun o => ⟨"bytes_utf16le", term, o⟩))

/-- `scan_file_for_terms` of scan_native_libs.py on an already-read buffer
(the read-error branch concerns file IO, outside this model). -/
def scan_file_for_terms (data : List Nat) (terms : List (List Char)) :
    List Finding :=
  terms.flatMap (term_findings data)

/-- `is_printable_ascii` of normalize.py. -/
def is_printable_ascii (b : Nat) : Bool := b = 9 || (32 ≤ b && b ≤ 126)

/-- The scanning loop of `extract_ascii_strings`: at a printable byte, take the
whole maximal printable run and yield it (with its start offset) when long
enough; otherwise advance one byte. The yielded text is the run itself: the
run's bytes are printable ASCII, so `bytes(buf).decode("ascii", "ignore")` is
the identity on code points and drops nothing. -/
def extractGo (min_len : Nat) : Nat → List Nat → Nat → List (Nat × List Nat)
  | 0, _, _ => []
  | _ + 1, [], _ => []
  | fuel + 1, b :: rest, i =>
    if is_printable_ascii b then
      let run := b :: rest.takeWhile is_printable_ascii
      let rest2 := rest.dropWhile is_printable_ascii
      if min_len ≤ run.length then
        (i, run) :: extractGo min_len fuel rest2 (i + run.length)
      else extractGo min_len fuel rest2 (i + run.length)
    else extractGo min_len fuel rest (i + 1)

/-- `extract_ascii_strings` of normalize.py. The fuel `data.length` dominates
the loop, which consumes at least one byte per iteration. -/
def extract_ascii_strings (data : List Nat) (min_len : Nat) :
    List (Nat × List Nat) :=
  extractGo min_len data.length data 0

/-- `MAX_EXAMPLES_PER_TERM_PER_FILE`. -/
def MAX_EXAMPLES_PER_TERM_PER_FILE : Nat := 25

/-- One entry of `CATEGORY_RULES`: `(category, exact_terms, substr_patterns)`.
The Python sets are modelled as lists in literal order; only membership is
ever used, so set iteration order is irrelevant. -/
structure Rule where
  category : String
  exact_terms : List (List Char)
  substr_patterns : List (List Char)

/-- `CATEGORY_RULES` of scan_normalized.py, in source order. -/
def CATEGORY_RULES : List Rule := [
  { category := "Foveated Rendering",
    exact_terms := ["foveation".data, "foveated rendering".data,
      "foveated graphics".data, "foveated display".data,
      "foveated rendering mode".data, "foveated".data],
    substr_patterns := ["foveat".data] },
  { category := "Raw Data Collection",
    exact_terms := ["EyeTrackingProvider".data, "EyeTrackingState".data,
      "GazeProvider".data, "ovrp_GetEyeGazesState".data,
      "ovrp_GetEyeTrackingState".data, "ovrp_GetEyeTrackingState2".data,
      "ovrpEyeGazesState".data, "ovrpEyeGaze".data, "ovrpEyeTrackingState".data,
      "GetEyeGazeData".data],
    substr_patterns := ["ovrp_GetEye".data, "ovrpEye".data,
      "EyeTrackingState".data, "EyeTrackingProvider".data,
      "GetEyeGazeData".data] },
  { category := "Eye-Tracking Enablement",
    exact_terms := ["EyeTracked".data, "eyeTrackingSupported".data,
      "eyeGazeSupported".data, "ovrp_SetEyeTrackingEnabled".data,
      "ovrp_GetEyeTrackingEnabled".data, "FOculusEyeTracking".data,
      "IOculusEyeTrackerModule".data, "eye tracking".data,
      "XR_EXT_eye_gaze_interaction".data, "xrLocateEyeGazesEXT".data,
      "XrEyeGazesEXT".data, "XrEyeGazeEXT".data, "XrEyeGazesInfoEXT".data,
      "xrLocateEyeGazes".data, "XR_EXT_eye_gaze_interaction".data,
      "XrEyeGaze".data],
    substr_patterns := ["Supported".data, "SetEyeTrackingEnabled".data,
      "GetEyeTrackingEnabled".data, "OculusEye".data] },
  { category := "Gaze Interactions",
    exact_terms := ["EyeGazeInteractor".data, "GazeInteractor".data,
      "interaction selection".data, "dwell time".data],
    substr_patterns := ["Interactor".data, "dwell".data, "selection".data,
      "gaze input".data] },
  { category := "Gaze Geometry",
    exact_terms := ["EyeGazeDirection".data, "EyeGazePosition".data,
      "EyeGazeRotation".data, "EyeOpenAmount".data, "eyeOpenness".data],
    substr_patterns := ["GazeDirection".data, "GazePosition".data,
      "GazeRotation".data, "EyeOpen".data] },
  { category := "Biometric Signals & Metrics",
    exact_terms := ["PupilDilation".data, "BlinkRate".data,
      "BlinkDuration".data, "SaccadeVelocity".data, "SaccadeAmplitude".data,
      "fixation".data, "fixation duration".data, "attention measurement".data,
      "attentionScore".data, "focused object".data],
    substr_patterns := ["Pupil".data, "Blink".data, "Saccade".data,
      "fixation".data, "attention".data, "focused object".data] }
]

/-- The exact-match loop of one rule: `tl == e.lower()` for some member of the
exact set. -/
def ruleExactMatch (tl : List Char) (r : Rule) : Bool :=
  r.exact_terms.any (fun e => decide (pyLower e = tl))

/-- The substring loop of one rule: `p.lower() in tl` for some pattern. -/
def ruleSubMatch (tl : List Char) (r : Rule) : Bool :=
  r.substr_patterns.any (fun p => containsSub tl (pyLower p))

/-- The body of `categorize_term` for a single rule: exact match first
(confidence `high`), otherwise substring match (confidence `medium`). -/
def ruleHit (tl : List Char) (r : Rule) : Option (String × String) :=
  if ruleExactMatch tl r then some (r.category, "high")
  else if ruleSubMatch tl r then some (r.category, "medium")
  else none

/-- The rule loop of `categorize_term`: first rule producing a hit wins; with
no rule matched the term is forced into the catch-all category at `low`. -/
def categorizeAux (tl : List Char) : List Rule → String × String
  | [] => ("Eye-Tracking Enablement", "low")
  | r :: rs =>
    match ruleHit tl r with
    | some res => res
    | none => categorizeAux tl rs

/-- `categorize_term` of scan_normalized.py. -/
def categorize_term (term : List Char) : String × String :=
  categorizeAux (pyLower (pyStrip term)) CATEGORY_RULES

/-- The line loop of `collect_matching_lines`: `k` lines collected so far;
append a matching (rstripped) line, stopping once `limit` lines are held. -/
def collectAux (t : List Char) (limit : Nat) :
    List (List Char) → Nat → List (List Char)
  | [], _ => []
  | line :: rest, k =>
    if containsSub (pyLower line) t then
      if limit ≤ k + 1 then [rstripNl line]
      else rstripNl line :: collectAux t limit rest (k + 1)
    else collectAux t limit rest k

/-- `collect_matching_lines` of scan_normalized.py. -/
def collect_matching_lines (text term : List Char) (limit : Nat) :
    List (List Char) :=
  collectAux (pyLower term) limit (splitLinesLF text) 0

/-- One hit record of `scan_text_file`. -/
structure HitR where
  term : List Char
  category : String
  confidence : String
  examples : List (List Char)
deriving DecidableEq

/-- The hit record `scan_text_file` appends for a matching term. -/
def hitFor (text term : List Char) : HitR :=
  { term := term
    category := (categorize_term term).1
    confidence := (categorize_term term).2
    examples := collect_matching_lines text term MAX_EXAMPLES_PER_TERM_PER_FILE }

/-- `scan_text_file` of scan_normalized.py on an already-read text (the
read-error branch concerns file IO, outside this model): for each term in
order, a hit iff the lowercased term occurs in the lowercased full text. -/
def scan_text_file (text : List Char) (terms : List (List Char)) : List HitR :=
  let lower_text := pyLower text
  terms.filterMap (fun term =>
    if containsSub lower_text (pyLower term) then some (hitFor text term)
    else none)

/-- Key accumulation of the `by_cat` dict: keys in first-insertion order. -/
def dedupAux : List String → List String → List String
  | [], _ => []
  | x :: xs, seen => if x ∈ seen then dedupAux xs seen else x :: dedupAux xs (x :: seen)

/-- First-occurrence key list of the `by_cat` dict. -/
def dedupKeys (l : List String) : List String := dedupAux l []

/-- Python `<` on strings: lexicographic by code point. -/
def strLtB : List Char → List Char → Bool
  | [], [] => false
  | [], _ :: _ => true
  | _ :: _, [] => false
  | x :: xs, y :: ys => if x = y then strLtB xs ys else decide (x < y)

/-- One insertion step of an ascending sort by Python string `<`. -/
def insertStr (x : String) : List String → List String
  | [] => [x]
  | y :: ys => if strLtB y.data x.data then y :: insertStr x ys else x :: y :: ys

/-- Ascending sort by Python string `<` (Python `sorted` on the dict keys). -/
def sortStrs : List String → List String
  | [] => []
  | x :: xs => insertStr x (sortStrs xs)

/-- The category rendering order of one artifact block in the master report:
`sorted(by_cat.keys())` over the hits of that file. -/
def sorted_categories (hits : List HitR) : List String :=
  sortStrs (dedupKeys (hits.map (fun h => h.category)))

/-- `FALLBACK_CATEGORY` of `main`. -/
def FALLBACK_CATEGORY : String := "Eye-Tracking Enablement"

/-- One CSV row of the `scan_summary.csv` export. -/
structure CsvRow where
  apk : String
  txt_file : String
  category : String
  category_confidence : String
  term : List Char
  example_count : Nat
deriving DecidableEq

/-- The rows `main` appends for one file: one row per hit, in hit order. -/
def rows_for_file (apk txt_file : String) (hits : List HitR) : List CsvRow :=
  hits.map (fun h =>
    { apk := apk, txt_file := txt_file, category := h.category
      category_confidence := h.confidence, term := h.term
      example_count := h.examples.length })

/-- An application bundle: its name and its scanned text artifacts. -/
structure AppData where
  name : String
  files : List (String × List Char)

/-- The `csv_rows` accumulation of `main`: nested loops over apps and files,
appending one row per hit of each file that has hits (the `continue` for
hit-less files appends nothing). -/
def main_csv_rows (terms : List (List Char)) (apps : List AppData) :
    List CsvRow :=
  apps.foldl (fun acc app =>
    app.files.foldl (fun acc2 file =>
      let hits := scan_text_file file.2 terms
      if hits = [] then acc2
      else acc2 ++ rows_for_file app.name file.1 hits) acc) []

/-- The `total_term_hits` counter summed over every app of the run. -/
def total_term_hits (terms : List (List Char)) (apps : List AppData) : Nat :=
  (apps.map (fun app =>
    (app.files.map (fun file => (scan_text_file file.2 terms).length)).sum)).sum

/-- `all_hits` for one app: the hits of its matching files, flattened
(`results["matches"]` keeps only files with at least one hit). -/
def app_all_hits (terms : List (List Char)) (files : List (String × List Char)) :
    List HitR :=
  (((files.map (fun f => scan_text_file f.2 terms)).filter
    (fun hits => !hits.isEmpty)).flatMap id)

/-- The enablement-only detection of `main`: some hit in the fallback
category and no hit outside it. -/
def enablement_only (terms : List (List Char))
    (files : List (String × List Char)) : Bool :=
  ((app_all_hits terms files).any (fun h => h.category == FALLBACK_CATEGORY))
    && !((app_all_hits terms files).any (fun h => h.category != FALLBACK_CATEGORY))

theorem findLoop_succ (data needle : List Nat) (start fuel : Nat) :
    findLoop data needle start (fuel + 1) =
      match findFrom data needle start with
      | none => []
      | some idx => idx :: findLoop data needle (idx + 1) fuel := rfl

theorem findLoop_stopped {data needle : List Nat} {start : Nat}
    (h : findFrom data needle start = none) (fuel : Nat) :
    findLoop data needle start fuel = [] := by
  cases fuel with
  | zero => rfl
  | succ f => rw [findLoop_succ, h]

theorem prefixFits_iff {α : Type} [DecidableEq α] (needle l : List α) :
    prefixFits needle l = true ↔ l.take needle.length = needle := by
  induction needle generalizing l with
  | nil => simp [prefixFits]
  | cons a as ih =>
    cases l with
    | nil => simp [prefixFits]
    | cons b bs =>
      by_cases h : a = b
      · subst h
        simp [prefixFits, ih]
      · simp [prefixFits, h, List.take]
        intro hba
        exact fun _ => h hba.symm

theorem prefixFits_length_le {α : Type} [DecidableEq α] {needle l : List α}
    (h : prefixFits needle l = true) : needle.length ≤ l.length := by
  have := (prefixFits_iff needle l).mp h
  calc needle.length = (l.take needle.length).length := by rw [this]
    _ ≤ l.length := by simp

theorem containsSub_exists {α : Type} [DecidableEq α] {hay needle : List α}
    (h : containsSub hay needle = true) :
    ∃ i, i + needle.length ≤ hay.length ∧ prefixFits needle (hay.drop i) = true := by
  induction hay with
  | nil =>
    refine ⟨0, ?_, ?_⟩
    · have : needle = [] := by simpa [containsSub] using h
      simp [this]
    · have : needle = [] := by simpa [containsSub] using h
      simp [this, prefixFits]
  | cons b t ih =>
    rcases Bool.or_eq_true_iff.mp (by simpa [containsSub] using h) with h1 | h2
    · exact ⟨0, by simpa using prefixFits_length_le h1, by simpa using h1⟩
    · obtain ⟨i, hle, hp⟩ := ih h2
      exact ⟨i + 1, by simp [List.length_cons]; omega, by simpa using hp⟩

theorem containsSub_of_occurrence {α : Type} [DecidableEq α] (hay needle : List α)
    (i : Nat) (hp : prefixFits needle (hay.drop i) = true) :
    containsSub hay needle = true := by
  induction hay generalizing i with
  | nil =>
    cases needle with
    | nil => simp [containsSub]
    | cons c cs => simp [List.drop_nil] at hp; cases hp
  | cons b t ih =>
    cases i with
    | zero => simp only [List.drop_zero] at hp; simp [containsSub, hp]
    | succ j =>
      have := ih j (by simpa using hp)
      simp [containsSub, this]

/-- One step bound for `List.dropWhile`. -/
theorem length_dropWhile_le' {α : Type} (p : α → Bool) (l : List α) :
    (l.dropWhile p).length ≤ l.length := by
  induction l with
  | nil => simp
  | cons a t ih =>
    by_cases h : p a
    · simp only [List.dropWhile, h, List.length_cons]
      omega
    · simp [List.dropWhile, h]

theorem findFromFuel_some {data needle : List Nat} {start fuel idx : Nat}
    (h : findFromFuel data needle start fuel = some idx) :
    start ≤ idx ∧ idx + needle.length ≤ data.length ∧
      prefixFits needle (data.drop idx) = true := by
  induction fuel generalizing start with
  | zero => simp [findFromFuel] at h
  | succ f ih =>
    by_cases hb : start + needle.length ≤ data.length
    · by_cases hp : prefixFits needle (data.drop start) = true
      · simp [findFromFuel, hb, hp] at h
        subst h
        exact ⟨Nat.le_refl _, hb, hp⟩
      · simp only [findFromFuel, hb, if_true, hp, if_false, Bool.false_eq_true] at h
        have := ih h
        exact ⟨Nat.le_of_succ_le this.1, this.2.1, this.2.2⟩
    · simp [findFromFuel, hb] at h

theorem findFromFuel_complete {data needle : List Nat} {i : Nat} (fuel : Nat)
    (hb : i + needle.length ≤ data.length)
    (hp : prefixFits needle (data.drop i) = true) :
    ∀ start, start ≤ i → i < start + fuel →
      ∃ j, findFromFuel data needle start fuel = some j ∧ j ≤ i := by
  induction fuel with
  | zero => intro start hs hf; omega
  | succ f ih =>
    intro start hs hf
    have hb' : start + needle.length ≤ data.length := by omega
    by_cases hps : prefixFits needle (data.drop start) = true
    · exact ⟨start, by simp [findFromFuel, hb', hps], hs⟩
    · have hne : start ≠ i := fun h => hps (h ▸ hp)
      obtain ⟨j, hj, hji⟩ := ih (start + 1) (by omega) (by omega)
      exact ⟨j, by simp [findFromFuel, hb', hps, hj], hji⟩

theorem findFrom_some {data needle : List Nat} {start idx : Nat}
    (h : findFrom data needle start = some idx) :
    start ≤ idx ∧ idx + needle.length ≤ data.length ∧
      prefixFits needle (data.drop idx) = true :=
  findFromFuel_some h

theorem findFrom_complete {data needle : List Nat} {start i : Nat}
    (hs : start ≤ i) (hb : i + needle.length ≤ data.length)
    (hp : prefixFits needle (data.drop i) = true) (hlen : 0 < needle.length) :
    ∃ j, findFrom data needle start = some j ∧ j ≤ i := by
  apply findFromFuel_complete _ hb hp _ hs
  omega


theorem findLoop_mem_lower {data needle : List Nat} {start fuel o : Nat}
    (h : o ∈ findLoop data needle start fuel) :
    start ≤ o ∧ o + needle.length ≤ data.length ∧
      prefixFits needle (data.drop o) = true := by
  induction fuel generalizing start with
  | zero => simp [findLoop] at h
  | succ f ih =>
    rw [findLoop_succ] at h
    cases hf : findFrom data needle start with
    | none => simp [hf] at h
    | some idx =>
      simp only [hf] at h
      have hidx := findFrom_some hf
      rcases List.mem_cons.mp h with rfl | hmem
      · exact hidx
      · have := ih hmem
        exact ⟨by omega, this.2.1, this.2.2⟩

theorem findLoop_chain (data needle : List Nat) (start fuel : Nat) :
    List.Chain' (fun a b => a < b) (findLoop data needle start fuel) := by
  induction fuel generalizing start with
  | zero => simp [findLoop]
  | succ f ih =>
    rw [findLoop_succ]
    cases hf : findFrom data needle start with
    | none => simp
    | some idx =>
      refine List.chain'_cons'.mpr ⟨?_, ih (idx + 1)⟩
      intro y hy
      have hmem : y ∈ findLoop data needle (idx + 1) f := List.mem_of_mem_head? hy
      have := (findLoop_mem_lower hmem).1
      omega

theorem findLoop_length_le (data needle : List Nat) (start fuel : Nat) :
    (findLoop data needle start fuel).length ≤ fuel := by
  induction fuel generalizing start with
  | zero => simp [findLoop]
  | succ f ih =>
    rw [findLoop_succ]
    cases hf : findFrom data needle start with
    | none => simp
    | some idx =>
      simpa using ih (idx + 1)

theorem utf16leBytes_ne_nil (c : Char) : utf16leBytes c ≠ [] := by
  unfold utf16leBytes
  by_cases h : c.toNat < 65536 <;> simp [h]

theorem encodeUtf16le_ne_nil {s : List Char} (h : s ≠ []) :
    encodeUtf16le s ≠ [] := by
  cases s with
  | nil => exact absurd rfl h
  | cons c t =>
    simp only [encodeUtf16le, List.flatMap_cons]
    intro hx
    exact utf16leBytes_ne_nil c (List.append_eq_nil.mp hx).1

theorem find_bytes_all_nil (data : List Nat) (cap : Nat) :
    find_bytes_all data [] cap = [] := by
  simp [find_bytes_all]

theorem find_bytes_all_length_le (data needle : List Nat) (cap : Nat) :
    (find_bytes_all data needle cap).length ≤ cap := by
  unfold find_bytes_all
  by_cases h : needle.length = 0
  · simp [h]
  · simp only [h, if_false]
    exact findLoop_length_le data needle 0 cap

/-- C7: `find_bytes_all` yields zero hits for an empty needle, records at most
`max_hits` occurrences, and finds overlapping occurrences by resuming at
offset `o + 1`: searching for the needle `"aa"` (bytes `[97,97]`) in the
buffer `"aaaa"` (bytes `[97,97,97,97]`) with any cap of at least 3 yields
exactly the offsets `[0, 1, 2]`. -/
theorem find_bytes_all_overlapping :
    (∀ (data : List Nat) (cap : Nat), find_bytes_all data [] cap = []) ∧
    (∀ (data needle : List Nat) (cap : Nat),
      (find_bytes_all data needle cap).length ≤ cap) ∧
    (∀ cap : Nat, 3 ≤ cap →
      find_bytes_all [97, 97, 97, 97] [97, 97] cap = [0, 1, 2]) := by
  refine ⟨find_bytes_all_nil, find_bytes_all_length_le, ?_⟩
  intro cap hcap
  obtain ⟨k, rfl⟩ : ∃ k, cap = k + 3 := ⟨cap - 3, by omega⟩
  have h0 : findFrom [97, 97, 97, 97] [97, 97] 0 = some 0 := by decide
  have h1 : findFrom [97, 97, 97, 97] [97, 97] 1 = some 1 := by decide
  have h2 : findFrom [97, 97, 97, 97] [97, 97] 2 = some 2 := by decide
  have h3 : findFrom [97, 97, 97, 97] [97, 97] 3 = none := by decide
  have e1 : findLoop [97, 97, 97, 97] [97, 97] 0 (k + 3) =
      0 :: findLoop [97, 97, 97, 97] [97, 97] 1 (k + 2) := by
    rw [show k + 3 = (k + 2) + 1 from rfl, findLoop_succ, h0]
  have e2 : findLoop [97, 97, 97, 97] [97, 97] 1 (k + 2) =
      1 :: findLoop [97, 97, 97, 97] [97, 97] 2 (k + 1) := by
    rw [show k + 2 = (k + 1) + 1 from rfl, findLoop_succ, h1]
  have e3 : findLoop [97, 97, 97, 97] [97, 97] 2 (k + 1) =
      2 :: findLoop [97, 97, 97, 97] [97, 97] 3 k := by
    rw [show k + 1 = k + 1 from rfl, findLoop_succ, h2]
  have e4 : findLoop [97, 97, 97, 97] [97, 97] 3 k = [] := findLoop_stopped h3 k
  have hstart : find_bytes_all [97, 97, 97, 97] [97, 97] (k + 3) =
      findLoop [97, 97, 97, 97] [97, 97] 0 (k + 3) := by
    simp [find_bytes_all]
  rw [hstart, e1, e2, e3, e4]

/-- Witness for C7 at cap 50. -/
theorem find_bytes_all_overlapping_witness :
    find_bytes_all [97, 97, 97, 97] [97, 97] 50 = [0, 1, 2] :=
  find_bytes_all_overlapping.2.2 50 (by decide)

/-- The rule loop returns the first rule hit in list order. -/
theorem categorizeAux_first_match :
    ∀ (rules : List Rule) (tl : List Char) (i : Nat) (hi : i < rules.length)
      (res : String × String),
      (∀ r ∈ rules.take i, ruleHit tl r = none) →
      ruleHit tl (rules.get ⟨i, hi⟩) = some res →
      categorizeAux tl rules = res := by
  intro rules
  induction rules with
  | nil => intro tl i hi; simp at hi
  | cons r rs ih =>
    intro tl i hi res hnone hhit
    cases i with
    | zero =>
      simp only [List.get] at hhit
      simp [categorizeAux, hhit]
    | succ n =>
      have h0 : ruleHit tl r = none := hnone r (by simp [List.take_succ_cons])
      have hrest : ∀ r' ∈ rs.take n, ruleHit tl r' = none := by
        intro r' hr'
        exact hnone r' (by simp [List.take_succ_cons, hr'])
      simp only [categorizeAux, h0]
      exact ih tl n (by simpa using hi) res hrest hhit

/-- With no rule matched, the catch-all is returned directly. -/
theorem categorizeAux_all_none :
    ∀ (rules : List Rule) (tl : List Char),
      (∀ r ∈ rules, ruleHit tl r = none) →
      categorizeAux tl rules = ("Eye-Tracking Enablement", "low") := by
  intro rules
  induction rules with
  | nil => intro tl _; rfl
  | cons r rs ih =>
    intro tl h
    have h0 : ruleHit tl r = none := h r (List.mem_cons_self r rs)
    simp only [categorizeAux, h0]
    exact ih tl (fun r' hr' => h r' (List.mem_cons_of_mem r hr'))

/-- C1: `categorize_term` evaluates the ordered rule table in list order,
checking exact equality before substring containment within each rule, and
the first rule producing either kind of match wins: within one rule an exact
match yields `high` even when a substring pattern also matches, and if an
earlier rule matches the term only via a substring pattern while a later rule
matches it exactly, the earlier rule's category is returned at `medium`. -/
theorem categorize_rule_precedence :
    (∀ (tl : List Char) (r : Rule), ruleExactMatch tl r = true →
      ruleHit tl r = some (r.category, "high")) ∧
    (∀ (t : List Char) (i j : Nat) (hi : i < CATEGORY_RULES.length)
      (hj : j < CATEGORY_RULES.length), i < j →
      (∀ r ∈ CATEGORY_RULES.take i, ruleHit (pyLower (pyStrip t)) r = none) →
      ruleExactMatch (pyLower (pyStrip t)) (CATEGORY_RULES.get ⟨i, hi⟩) = false →
      ruleSubMatch (pyLower (pyStrip t)) (CATEGORY_RULES.get ⟨i, hi⟩) = true →
      ruleExactMatch (pyLower (pyStrip t)) (CATEGORY_RULES.get ⟨j, hj⟩) = true →
      categorize_term t = ((CATEGORY_RULES.get ⟨i, hi⟩).category, "medium")) := by
  constructor
  · intro tl r he
    simp [ruleHit, he]
  · intro t i j hi hj _ hnone hexact hsub _
    have hhit : ruleHit (pyLower (pyStrip t)) (CATEGORY_RULES.get ⟨i, hi⟩) =
        some ((CATEGORY_RULES.get ⟨i, hi⟩).category, "medium") := by
      simp only [List.get_eq_getElem] at hexact hsub
      simp [ruleHit, hexact, hsub]
    exact categorizeAux_first_match CATEGORY_RULES (pyLower (pyStrip t)) i hi _ hnone hhit

/-- Witness for C1: rule 2 ("Raw Data Collection", index 1) matches
`"ovrp_GetEyeTrackingEnabled"` only via its substring pattern `"ovrp_GetEye"`,
while rule 3 ("Eye-Tracking Enablement", index 2) lists the term exactly; the
earlier rule wins at `medium`. -/
theorem categorize_rule_precedence_witness :
    categorize_term ("ovrp_GetEyeTrackingEnabled").data =
      ("Raw Data Collection", "medium") := by
  exact categorize_rule_precedence.2 ("ovrp_GetEyeTrackingEnabled").data 1 2
    (by decide) (by decide) (by decide) (by decide) (by decide) (by decide)
    (by decide)

/-- Counterexample for C2: `"fovea"` (a foveation-related fragment) and
`"ovrp_axis_provider_ext"` (vendor-prefix, geometry-axis, provider and
extension-namespace fragments) match no rule, yet both receive the
catch-all category `"Eye-Tracking Enablement"` at `low` — no fragment-based
heuristic assigns them a fragment-specific category. -/
theorem categorize_fragment_fallback_cex :
    (CATEGORY_RULES.all
      (fun r => decide (ruleHit (pyLower (pyStrip ("fovea").data)) r = none))) = true ∧
    (CATEGORY_RULES.all
      (fun r => decide (ruleHit (pyLower (pyStrip ("ovrp_axis_provider_ext").data)) r = none))) = true ∧
    categorize_term ("fovea").data = ("Eye-Tracking Enablement", "low") ∧
    categorize_term ("ovrp_axis_provider_ext").data =
      ("Eye-Tracking Enablement", "low") := by
  decide

/-- C2 (amended): every term matched by no rule in the rule table receives
the catch-all category `"Eye-Tracking Enablement"` at confidence `low`
directly; `categorize_term` has no intermediate fragment-based heuristic. -/
theorem categorize_unmatched_fallback :
    ∀ t : List Char,
      (∀ r ∈ CATEGORY_RULES, ruleHit (pyLower (pyStrip t)) r = none) →
      categorize_term t = ("Eye-Tracking Enablement", "low") := by
  intro t h
  exact categorizeAux_all_none CATEGORY_RULES (pyLower (pyStrip t)) h

/-- Witness for the amended C2 at the term `"fovea"`. -/
theorem categorize_unmatched_fallback_witness :
    categorize_term ("fovea").data = ("Eye-Tracking Enablement", "low") :=
  categorize_unmatched_fallback ("fovea").data (by decide)

/-- C10: for a non-empty needle and positive cap, every offset returned by
`find_bytes_all` is a genuine occurrence (the buffer's bytes from that offset
equal the needle), the offsets are strictly increasing, and at most `max_hits`
offsets are returned. -/
theorem find_bytes_all_sound :
    ∀ (data needle : List Nat) (cap : Nat), needle ≠ [] → 0 < cap →
      (∀ o ∈ find_bytes_all data needle cap,
        (data.drop o).take needle.length = needle) ∧
      List.Chain' (fun a b => a < b) (find_bytes_all data needle cap) ∧
      (find_bytes_all data needle cap).length ≤ cap := by
  intro data needle cap hne _
  have hlen : needle.length ≠ 0 := fun h => hne (List.length_eq_zero.mp h)
  refine ⟨?_, ?_, find_bytes_all_length_le data needle cap⟩
  · intro o ho
    simp only [find_bytes_all, if_neg hlen] at ho
    have := (findLoop_mem_lower ho).2.2
    exact (prefixFits_iff needle (data.drop o)).mp this
  · simp only [find_bytes_all, if_neg hlen]
    exact findLoop_chain data needle 0 cap

/-- Witness for C10 on the buffer `"aaaa"`, needle `"aa"`, cap 50. -/
theorem find_bytes_all_sound_witness :
    (List.drop 1 [97, 97, 97, 97]).take 2 = ([97, 97] : List Nat) ∧
    List.Chain' (fun a b => a < b) (find_bytes_all [97, 97, 97, 97] [97, 97] 50) :=
  ⟨(find_bytes_all_sound [97, 97, 97, 97] [97, 97] 50 (by decide) (by decide)).1
      1 (by decide),
   (find_bytes_all_sound [97, 97, 97, 97] [97, 97] 50 (by decide) (by decide)).2.1⟩

/-- Lines assembled by `splitAux` never contain a line feed. -/
theorem splitAux_no_nl :
    ∀ (s cur : List Char), (∀ c ∈ cur, c ≠ '\n') →
      ∀ l ∈ splitAux s cur, '\n' ∉ l := by
  intro s
  induction s with
  | nil =>
    intro cur hcur l hl
    simp only [splitAux, List.mem_singleton] at hl
    subst hl
    intro hnl
    exact hcur '\n' (List.mem_reverse.mp hnl) rfl
  | cons c rest ih =>
    intro cur hcur l hl
    by_cases hc : c = '\n'
    · subst hc
      simp only [splitAux, if_pos rfl] at hl
      rcases List.mem_cons.mp hl with rfl | hmem
      · intro hnl
        exact hcur '\n' (List.mem_reverse.mp hnl) rfl
      · cases rest with
        | nil => simp at hmem
        | cons d ds => exact ih [] (by simp) l hmem
    · simp only [splitAux, if_neg hc] at hl
      refine ih (c :: cur) ?_ l hl
      intro x hx
      rcases List.mem_cons.mp hx with rfl | hx'
      · exact hc
      · exact hcur x hx'

/-- Lines of `splitLinesLF` never contain a line feed. -/
theorem splitLinesLF_no_nl (s : List Char) :
    ∀ l ∈ splitLinesLF s, '\n' ∉ l := by
  cases s with
  | nil => simp [splitLinesLF]
  | cons c rest => exact splitAux_no_nl (c :: rest) [] (by simp)

/-- `rstrip("\n")` leaves a newline-free line unchanged. -/
theorem rstripNl_eq_self {l : List Char} (h : '\n' ∉ l) : rstripNl l = l := by
  unfold rstripNl
  have hdw : l.reverse.dropWhile (fun c => c = '\n') = l.reverse := by
    cases hr : l.reverse with
    | nil => rfl
    | cons a t =>
      have ha : a ∈ l := by
        rw [← List.mem_reverse, hr]
        exact List.mem_cons_self a t
      have : (a = '\n' : Bool) = false := by
        simp only [decide_eq_false_iff_not]
        intro hab
        exact h (hab ▸ ha)
      simp [List.dropWhile, this]
  rw [hdw, List.reverse_reverse]

/-- The example collector returns a sublist of its input lines (in order). -/
theorem collectAux_sublist (t : List Char) (limit : Nat) :
    ∀ (lines : List (List Char)) (k : Nat),
      (∀ l ∈ lines, rstripNl l = l) →
      List.Sublist (collectAux t limit lines k) lines := by
  intro lines
  induction lines with
  | nil => intro k _; simp [collectAux]
  | cons line rest ih =>
    intro k hr
    have hline : rstripNl line = line := hr line (List.mem_cons_self _ _)
    have hrest : ∀ l ∈ rest, rstripNl l = l :=
      fun l hl => hr l (List.mem_cons_of_mem _ hl)
    by_cases hc : containsSub (pyLower line) t = true
    · by_cases hstop : limit ≤ k + 1
      · simp only [collectAux, hc, if_true, if_pos hstop, hline]
        exact (List.nil_sublist rest).cons₂ line
      · simp only [collectAux, hc, if_true, if_neg hstop, hline]
        exact (ih (k + 1) hrest).cons₂ line
    · simp only [collectAux, hc, if_false]
      exact (ih k hrest).cons line

/-- Every collected example line contains the (lowercased) term. -/
theorem collectAux_mem (t : List Char) (limit : Nat) :
    ∀ (lines : List (List Char)) (k : Nat),
      (∀ l ∈ lines, rstripNl l = l) →
      ∀ x ∈ collectAux t limit lines k, containsSub (pyLower x) t = true := by
  intro lines
  induction lines with
  | nil => intro k _ x hx; simp [collectAux] at hx
  | cons line rest ih =>
    intro k hr x hx
    have hline : rstripNl line = line := hr line (List.mem_cons_self _ _)
    have hrest : ∀ l ∈ rest, rstripNl l = l :=
      fun l hl => hr l (List.mem_cons_of_mem _ hl)
    by_cases hc : containsSub (pyLower line) t = true
    · by_cases hstop : limit ≤ k + 1
      · simp only [collectAux, hc, if_true, if_pos hstop, hline,
          List.mem_singleton] at hx
        exact hx ▸ hc
      · simp only [collectAux, hc, if_true, if_neg hstop, hline] at hx
        rcases List.mem_cons.mp hx with rfl | hmem
        · exact hc
        · exact ih (k + 1) hrest x hmem
    · simp only [collectAux, hc, if_false] at hx
      exact ih k hrest x hx

/-- With `k` examples already held and `k < limit`, at most `limit - k` more
lines are collected. -/
theorem collectAux_length (t : List Char) (limit : Nat) :
    ∀ (lines : List (List Char)) (k : Nat), k < limit →
      (collectAux t limit lines k).length ≤ limit - k := by
  intro lines
  induction lines with
  | nil => intro k hk; simp [collectAux]
  | cons line rest ih =>
    intro k hk
    by_cases hc : containsSub (pyLower line) t = true
    · by_cases hstop : limit ≤ k + 1
      · simp only [collectAux, hc, if_true, if_pos hstop, List.length_singleton]
        omega
      · simp only [collectAux, hc, if_true, if_neg hstop, List.length_cons]
        have := ih (k + 1) (by omega)
        omega
    · have hc' : containsSub (pyLower line) t = false := eq_false_of_ne_true hc
      simp only [collectAux, hc', Bool.false_eq_true, if_false]
      have := ih k hk
      omega

theorem collect_matching_lines_sublist (text term : List Char) (limit : Nat) :
    List.Sublist (collect_matching_lines text term limit) (splitLinesLF text) := by
  unfold collect_matching_lines
  apply collectAux_sublist
  intro l hl
  exact rstripNl_eq_self (splitLinesLF_no_nl text l hl)

theorem collect_matching_lines_mem (text term : List Char) (limit : Nat) :
    ∀ x ∈ collect_matching_lines text term limit,
      containsSub (pyLower x) (pyLower term) = true := by
  unfold collect_matching_lines
  apply collectAux_mem
  intro l hl
  exact rstripNl_eq_self (splitLinesLF_no_nl text l hl)

theorem collect_matching_lines_length (text term : List Char) {limit : Nat}
    (h : 0 < limit) :
    (collect_matching_lines text term limit).length ≤ limit := by
  unfold collect_matching_lines
  have := collectAux_length (pyLower term) limit (splitLinesLF text) 0 h
  omega

/-- Every entry yielded by the extraction loop starts at or after the running
offset, is at least `min_len` long, and consists of printable bytes only. -/
theorem extractGo_mem (min_len : Nat) :
    ∀ (fuel : Nat) (l : List Nat) (i : Nat), ∀ p ∈ extractGo min_len fuel l i,
      i ≤ p.1 ∧ min_len ≤ p.2.length ∧ ∀ b ∈ p.2, is_printable_ascii b = true := by
  intro fuel
  induction fuel with
  | zero => intro l i p hp; simp [extractGo] at hp
  | succ f ih =>
    intro l i p hp
    cases l with
    | nil => simp [extractGo] at hp
    | cons b rest =>
      by_cases hb : is_printable_ascii b = true
      · simp only [extractGo, hb, if_true] at hp
        by_cases hmin : min_len ≤ (b :: rest.takeWhile is_printable_ascii).length
        · rw [if_pos hmin] at hp
          rcases List.mem_cons.mp hp with rfl | hmem
          · refine ⟨Nat.le_refl i, hmin, ?_⟩
            intro x hx
            rcases List.mem_cons.mp hx with rfl | hx'
            · exact hb
            · exact List.mem_takeWhile_imp hx'
          · have := ih _ _ p hmem
            exact ⟨by omega, this.2.1, this.2.2⟩
        · rw [if_neg hmin] at hp
          have := ih _ _ p hp
          exact ⟨by omega, this.2.1, this.2.2⟩
      · simp only [extractGo, hb, if_false] at hp
        have := ih _ _ p hp
        exact ⟨by omega, this.2.1, this.2.2⟩

/-- The starting offsets yielded by the extraction loop strictly increase. -/
theorem extractGo_chain (min_len : Nat) :
    ∀ (fuel : Nat) (l : List Nat) (i : Nat),
      List.Chain' (fun p q : Nat × List Nat => p.1 < q.1)
        (extractGo min_len fuel l i) := by
  intro fuel
  induction fuel with
  | zero => intro l i; simp [extractGo]
  | succ f ih =>
    intro l i
    cases l with
    | nil => simp [extractGo]
    | cons b rest =>
      by_cases hb : is_printable_ascii b = true
      · simp only [extractGo, hb, if_true]
        by_cases hmin : min_len ≤ (b :: rest.takeWhile is_printable_ascii).length
        · rw [if_pos hmin]
          refine List.chain'_cons'.mpr ⟨?_, ih _ _⟩
          intro q hq
          have hqmem := List.mem_of_mem_head? hq
          have := (extractGo_mem min_len f _ _ q hqmem).1
          simp only [List.length_cons] at this
          simp only
          omega
        · rw [if_neg hmin]
          exact ih _ _
      · simp only [extractGo, hb, if_false]
        exact ih _ _

/-- C6: for every byte buffer and minimum length, `extract_ascii_strings`
yields pairs with strictly increasing offsets, every yielded text is at least
the configured minimum length, and every byte of a yielded text is printable
(printable meaning the byte equals 9 or lies in [32,126], `is_printable_ascii`). -/
theorem extract_ascii_strings_invariants :
    ∀ (data : List Nat) (min_len : Nat),
      List.Chain' (fun a b => a < b)
        ((extract_ascii_strings data min_len).map Prod.fst) ∧
      ∀ p ∈ extract_ascii_strings data min_len,
        min_len ≤ p.2.length ∧ ∀ b ∈ p.2, is_printable_ascii b = true := by
  intro data min_len
  constructor
  · rw [List.chain'_map]
    exact extractGo_chain min_len data.length data 0
  · intro p hp
    exact (extractGo_mem min_len data.length data 0 p hp).2

/-- Witness for C6 on the buffer `[72,105,0,65,66,67,68,10]` (the run
`"ABCD"` at offset 3 is the only one of length at least 4). -/
theorem extract_ascii_strings_invariants_witness :
    List.Chain' (fun a b => a < b)
      ((extract_ascii_strings [72, 105, 0, 65, 66, 67, 68, 10] 4).map Prod.fst) ∧
    4 ≤ ([65, 66, 67, 68] : List Nat).length ∧
    is_printable_ascii 65 = true :=
  ⟨(extract_ascii_strings_invariants [72, 105, 0, 65, 66, 67, 68, 10] 4).1,
   ((extract_ascii_strings_invariants [72, 105, 0, 65, 66, 67, 68, 10] 4).2
      (3, [65, 66, 67, 68]) (by decide)).1,
   ((extract_ascii_strings_invariants [72, 105, 0, 65, 66, 67, 68, 10] 4).2
      (3, [65, 66, 67, 68]) (by decide)).2 65 (by decide)⟩

/-- C8: `scan_text_file` produces a hit for a term iff the term occurs as a
case-insensitive substring of the full artifact text; each hit carries the
term's `categorize_term` result and at most `MAX_EXAMPLES_PER_TERM_PER_FILE`
lines of the text, in file order (a sublist of the text's lines), each
containing the term case-insensitively; an absent term produces no hit. -/
theorem scan_text_file_hits :
    ∀ (text : List Char) (terms : List (List Char)),
      (∀ term : List Char,
        (∃ h ∈ scan_text_file text terms, h.term = term) ↔
          (term ∈ terms ∧ containsSub (pyLower text) (pyLower term) = true)) ∧
      (∀ h ∈ scan_text_file text terms,
        (h.category, h.confidence) = categorize_term h.term ∧
        h.examples.length ≤ MAX_EXAMPLES_PER_TERM_PER_FILE ∧
        List.Sublist h.examples (splitLinesLF text) ∧
        ∀ line ∈ h.examples,
          containsSub (pyLower line) (pyLower h.term) = true) := by
  intro text terms
  constructor
  · intro term
    constructor
    · rintro ⟨h, hmem, hterm⟩
      obtain ⟨a, ha, hf⟩ := List.mem_filterMap.mp hmem
      by_cases hc : containsSub (pyLower text) (pyLower a) = true
      · simp only [hc, if_true, Option.some.injEq] at hf
        have hta : h.term = a := by rw [← hf]; rfl
        rw [← hterm, hta]
        exact ⟨ha, hc⟩
      · simp [hc] at hf
    · rintro ⟨hmem, hc⟩
      refine ⟨hitFor text term, List.mem_filterMap.mpr ⟨term, hmem, ?_⟩, rfl⟩
      rw [if_pos hc]
  · intro h hmem
    obtain ⟨a, _, hf⟩ := List.mem_filterMap.mp hmem
    by_cases hc : containsSub (pyLower text) (pyLower a) = true
    · simp only [hc, if_true, Option.some.injEq] at hf
      subst hf
      refine ⟨rfl, ?_, ?_, ?_⟩
      · exact collect_matching_lines_length text a (by decide)
      · exact collect_matching_lines_sublist text a _
      · exact collect_matching_lines_mem text a _
    · simp [hc] at hf

/-- Witness for C8: the artifact line `call FooTracking()` yields a hit for
the term `"FooTracking"` with the categorizer's result attached and the line
as its sole example; the absent term `"BarAPI"` yields no hit. -/
theorem scan_text_file_hits_witness :
    containsSub (pyLower ("call FooTracking()").data)
      (pyLower ("FooTracking").data) = true ∧
    (hitFor ("call FooTracking()").data ("FooTracking").data).examples.length ≤
      MAX_EXAMPLES_PER_TERM_PER_FILE ∧
    scan_text_file ("call FooTracking()").data [("BarAPI").data] = [] :=
  ⟨by decide,
   ((scan_text_file_hits ("call FooTracking()").data
      [("FooTracking").data, ("BarAPI").data]).2
      (hitFor ("call FooTracking()").data ("FooTracking").data) (by decide)).2.1,
   by decide⟩

/-- Counterexample for C3: a raw buffer holding exactly the UTF-16LE bytes of
`"Gaze"` in its original casing (and not its UTF-8 bytes); the terms loader
stores `"gaze"`, whose byte-exact needles miss the mixed-case buffer, so the
searcher reports no hit at all, not a UTF-16LE-tagged hit. -/
theorem searcher_case_sensitivity_cex :
    containsSub [71, 0, 97, 0, 122, 0, 101, 0] (encodeUtf16le ("Gaze").data) = true ∧
    containsSub [71, 0, 97, 0, 122, 0, 101, 0] (encodeUtf8 ("Gaze").data) = false ∧
    load_search_terms [("Gaze").data] = [("gaze").data] ∧
    scan_file_for_terms [71, 0, 97, 0, 122, 0, 101, 0]
      (load_search_terms [("Gaze").data]) = [] := by
  decide

/-- C3 (amended): matching in `scan_file_for_terms` is byte-exact against the
needles of the term as stored, and the loader stores terms lowercased: for
every loaded term, a raw buffer that contains the UTF-16LE encoding of the
stored (lowercased) term yields at least one finding for that term tagged
`"bytes_utf16le"`; a buffer containing the term's UTF-16LE bytes only in a
different casing yields none (see the counterexample). -/
theorem searcher_reports_lowercased_utf16le :
    ∀ (lines : List (List Char)) (data : List Nat) (t : List Char),
      t ∈ load_search_terms lines → t ≠ [] →
      containsSub data (encodeUtf16le t) = true →
      ∃ f, f ∈ scan_file_for_terms data (load_search_terms lines) ∧
        f.type = "bytes_utf16le" ∧ f.term = t := by
  intro lines data t ht htne hsub
  have hbu : encodeUtf16le t ≠ [] := encodeUtf16le_ne_nil htne
  have hbl : 0 < (encodeUtf16le t).length := List.length_pos.mpr hbu
  obtain ⟨i, hile, hip⟩ := containsSub_exists hsub
  obtain ⟨j, hj, _⟩ := findFrom_complete (Nat.zero_le i) hile hip hbl
  have hlen : (encodeUtf16le t).length ≠ 0 := by omega
  have hfba : find_bytes_all data (encodeUtf16le t) MAX_HITS_PER_TERM_PER_FILE =
      j :: findLoop data (encodeUtf16le t) (j + 1) 49 := by
    simp only [find_bytes_all, if_neg hlen]
    rw [show MAX_HITS_PER_TERM_PER_FILE = 49 + 1 from rfl, findLoop_succ, hj]
  refine ⟨⟨"bytes_utf16le", t, j⟩, ?_, rfl, rfl⟩
  apply List.mem_flatMap.mpr
  refine ⟨t, ht, ?_⟩
  unfold term_findings
  apply List.mem_append_right
  simp only [if_neg hbu]
  rw [hfba]
  exact List.mem_map.mpr ⟨j, List.mem_cons_self _ _, rfl⟩

/-- Witness for the amended C3: buffer holding UTF-16LE `"gaze"` with the term
loaded from the line `"Gaze"`. -/
theorem searcher_reports_lowercased_utf16le_witness :
    scan_file_for_terms [103, 0, 97, 0, 122, 0, 101, 0]
        (load_search_terms [("Gaze").data]) ≠ [] := by
  obtain ⟨f, hf, -, -⟩ := searcher_reports_lowercased_utf16le [("Gaze").data]
    [103, 0, 97, 0, 122, 0, 101, 0] (("gaze").data) (by decide) (by decide)
    (by decide)
  exact List.ne_nil_of_mem hf

/-- C5: the enablement-only flag of an app is true iff the app has at least
one hit and every one of its hits, across all of its artifacts, has the
designated baseline category `FALLBACK_CATEGORY`; in particular an app with
zero hits is not flagged, and one off-baseline hit prevents the flag. -/
theorem enablement_only_iff :
    ∀ (terms : List (List Char)) (files : List (String × List Char)),
      enablement_only terms files = true ↔
        (app_all_hits terms files ≠ [] ∧
          ∀ h ∈ app_all_hits terms files, h.category = FALLBACK_CATEGORY) := by
  intro terms files
  unfold enablement_only
  rw [Bool.and_eq_true, List.any_eq_true, Bool.not_eq_true', List.any_eq_false]
  constructor
  · rintro ⟨⟨h, hmem, hcat⟩, hall⟩
    refine ⟨List.ne_nil_of_mem hmem, ?_⟩
    intro x hx
    have := hall x hx
    simpa using this
  · rintro ⟨hne, hall⟩
    obtain ⟨h, hmem⟩ := List.exists_mem_of_ne_nil _ hne
    refine ⟨⟨h, hmem, by simp [hall h hmem]⟩, ?_⟩
    intro x hx
    simp [hall x hx]

/-- Witness for C5: an app whose only hit is the `"eye tracking"` term
(baseline category) is flagged. -/
theorem enablement_only_iff_witness :
    enablement_only [("eye tracking").data]
      [("a", ("has eye tracking").data)] = true :=
  (enablement_only_iff [("eye tracking").data]
      [("a", ("has eye tracking").data)]).mpr ⟨by decide, by decide⟩

/-- Accumulating `foldl` with appends equals flat-mapping. -/
theorem foldl_append_flatMap {β γ : Type} (g : β → List γ) :
    ∀ (l : List β) (acc : List γ),
      l.foldl (fun a x => a ++ g x) acc = acc ++ l.flatMap g := by
  intro l
  induction l with
  | nil => intro acc; simp
  | cons x xs ih =>
    intro acc
    rw [List.foldl_cons, List.flatMap_cons, ih, List.append_assoc]

/-- C9: the long-form CSV export contains exactly one row per categorized hit
— the flattening over apps, artifacts and hits — so its row count equals the
total number of term hits across all artifacts and apps, and each row carries
the hit's confidence tier and example-line count (via `rows_for_file`). -/
theorem csv_rows_one_per_hit :
    ∀ (terms : List (List Char)) (apps : List AppData),
      main_csv_rows terms apps =
        apps.flatMap (fun app => app.files.flatMap (fun file =>
          rows_for_file app.name file.1 (scan_text_file file.2 terms))) ∧
      (main_csv_rows terms apps).length = total_term_hits terms apps := by
  intro terms apps
  have hmain : main_csv_rows terms apps =
      apps.flatMap (fun app => app.files.flatMap (fun file =>
        rows_for_file app.name file.1 (scan_text_file file.2 terms))) := by
    unfold main_csv_rows
    have hinner : ∀ (app : AppData) (acc : List CsvRow),
        app.files.foldl (fun acc2 file =>
          let hits := scan_text_file file.2 terms
          if hits = [] then acc2
          else acc2 ++ rows_for_file app.name file.1 hits) acc =
        acc ++ app.files.flatMap (fun file =>
          rows_for_file app.name file.1 (scan_text_file file.2 terms)) := by
      intro app acc
      have hfn : (fun (acc2 : List CsvRow) (file : String × List Char) =>
          let hits := scan_text_file file.2 terms
          if hits = [] then acc2
          else acc2 ++ rows_for_file app.name file.1 hits) =
          (fun acc2 file =>
            acc2 ++ rows_for_file app.name file.1 (scan_text_file file.2 terms)) := by
        funext acc2 file
        by_cases h : scan_text_file file.2 terms = []
        · simp [h, rows_for_file]
        · simp [h]
      rw [hfn, foldl_append_flatMap]
    have houter : (fun (acc : List CsvRow) (app : AppData) =>
        app.files.foldl (fun acc2 file =>
          let hits := scan_text_file file.2 terms
          if hits = [] then acc2
          else acc2 ++ rows_for_file app.name file.1 hits) acc) =
        (fun acc app => acc ++ app.files.flatMap (fun file =>
          rows_for_file app.name file.1 (scan_text_file file.2 terms))) := by
      funext acc app
      exact hinner app acc
    rw [houter, foldl_append_flatMap]
    rfl
  refine ⟨hmain, ?_⟩
  rw [hmain]
  unfold total_term_hits
  rw [List.length_flatMap]
  congr 1
  apply List.map_congr_left
  intro app _
  simp only [Function.comp]
  rw [List.length_flatMap]
  congr 1
  apply List.map_congr_left
  intro file _
  simp [rows_for_file]

/-- Witness for C9 at a one-app, one-file, one-hit configuration. -/
theorem csv_rows_one_per_hit_witness :
    (main_csv_rows [("eye tracking").data]
        [⟨"app", [("f", ("has eye tracking").data)]⟩]).length =
      total_term_hits [("eye tracking").data]
        [⟨"app", [("f", ("has eye tracking").data)]⟩] :=
  (csv_rows_one_per_hit [("eye tracking").data]
    [⟨"app", [("f", ("has eye tracking").data)]⟩]).2

/-- C4 evaluation: the master report renders an artifact block's categories
with a plain `sorted(...)`: for a file that hits both `"foveation"`
(category "Foveated Rendering") and `"eye tracking"` (the catch-all category
"Eye-Tracking Enablement"), the rendered order is plain lexicographic and the
catch-all comes first, not last — contradicting the specified
catch-all-renders-last exception (and the code's own comment). -/
theorem master_sorted_categories_eval :
    sorted_categories (scan_text_file ("call foveation and eye tracking").data
      [("eye tracking").data, ("foveation").data]) =
      ["Eye-Tracking Enablement", "Foveated Rendering"] ∧
    (sorted_categories (scan_text_file ("call foveation and eye tracking").data
      [("eye tracking").data, ("foveation").data])).getLast? ≠
      some FALLBACK_CATEGORY := by
  decide

end NativeScan
